import Mathlib

/-!
# A verification development for the zfparse song-segmentation pipeline

This file gives a shallow embedding of `zfparse/zfparse.py` and proves
properties of its six-stage segmentation pipeline.

Modelling conventions:

* Timestamps are integers (`Int`), read as microsecond ticks: Python
  `datetime` values are internally integer microsecond counts, and every
  comparison the code makes (`delta_t(a, b) <= threshold` and friends) is
  invariant under the fixed ticks-per-second scaling, so integer ticks are
  order-faithful to `datetime` arithmetic.  Thresholds live in the same unit.
* Python list indexing `lst[i]` is modelled with `List.getD i default`;
  inputs are assumed to carry in-range indices (the theorems that depend on
  well-formedness carry it as a hypothesis).
* Code that can raise (`[-1]` on an empty list, `min` of an empty sequence,
  `list.index` of a missing element) is modelled with `Option`; `none` is
  "raises".
-/

/-- Mirrors `Vocalization = namedtuple('Vocalization', ['start', 'stop', 'name'])`. -/
structure Vocalization where
  start : Int
  stop : Int
  name : String
deriving DecidableEq, Inhabited

/-- Mirrors `delta_t(first, second)`: time between the end of `first` and the
beginning of `second`. -/
def delta_t (first second : Vocalization) : Int :=
  second.start - first.stop

/-- Mirrors class `VocGroup`: a group of vocalizations referenced to a master
vocalization list by indices.  The derived `vocalizations` list is a `def`
below rather than a stored field. -/
structure VocGroup where
  voc_list : List Vocalization
  voc_idxs : List Nat
deriving DecidableEq

instance : Inhabited VocGroup := ⟨⟨[], []⟩⟩

/-- Mirrors `self.vocalizations = [voc_list[i] for i in self.voc_idxs]`. -/
def VocGroup.vocalizations (g : VocGroup) : List Vocalization :=
  g.voc_idxs.map (fun i => g.voc_list.getD i default)

/-- Mirrors `VocGroup.first`: `self.vocalizations[0]`. -/
def VocGroup.first (g : VocGroup) : Vocalization :=
  g.vocalizations.headD default

/-- Mirrors `VocGroup.last`: `self.vocalizations[-1]`. -/
def VocGroup.last (g : VocGroup) : Vocalization :=
  g.vocalizations.getLastD default

/-- Mirrors `VocGroup.start = self.first.start`. -/
def VocGroup.start (g : VocGroup) : Int :=
  g.first.start

/-- Mirrors `VocGroup.stop = self.last.stop`. -/
def VocGroup.stop (g : VocGroup) : Int :=
  g.last.stop

/-- Mirrors `delta_t` applied to two `VocGroup`s (Python's `delta_t` is duck-typed). -/
def deltaG (first second : VocGroup) : Int :=
  second.start - first.stop

/-!
## The shared loop shape

Four of the pipeline's loops (`anneal_groups`, `split_groups`,
`define_motifs`, `define_phrases`) have the same shape: walk a list, and for
each element decide - by looking at the previous element, i.e. the last
element of the chunk being accumulated - whether to start a new chunk or to
extend the current one.  `chunkM` captures that shape with a test that may
fail (modelling Python exceptions); `chunkBy` is the total-test special case.
-/

/-- Chunk `xs`, starting a new chunk at `x` exactly when
`test (previous element) x = some true`; a failing test (`none`) aborts.
`done` holds the finished chunks, `cur` the (non-empty) chunk in progress. -/
def chunkM {α : Type} [Inhabited α] (test : α → α → Option Bool)
    (done : List (List α)) (cur : List α) : List α → Option (List (List α))
  | [] => some (done ++ [cur])
  | x :: xs =>
    match test (cur.getLastD default) x with
    | none => none
    | some true => chunkM test (done ++ [cur]) [x] xs
    | some false => chunkM test done (cur ++ [x]) xs

/-- Total-test version of `chunkM`. -/
def chunkBy {α : Type} [Inhabited α] (p : α → α → Bool)
    (done : List (List α)) (cur : List α) : List α → List (List α)
  | [] => done ++ [cur]
  | x :: xs =>
    if p (cur.getLastD default) x then chunkBy p (done ++ [cur]) [x] xs
    else chunkBy p done (cur ++ [x]) xs

theorem chunkM_of_chunkBy {α : Type} [Inhabited α] (p : α → α → Bool) :
    ∀ (xs : List α) (done : List (List α)) (cur : List α),
      chunkM (fun a b => some (p a b)) done cur xs = some (chunkBy p done cur xs) := by
  intro xs
  induction xs with
  | nil => intro done cur; rfl
  | cons x xs ih =>
    intro done cur
    cases h : p (cur.getLastD default) x with
    | true =>
      simp only [chunkM, chunkBy, h, if_true]
      exact ih (done ++ [cur]) [x]
    | false =>
      simp only [chunkM, chunkBy, h, Bool.false_eq_true, if_false]
      exact ih done (cur ++ [x])

theorem chunkM_done_append {α : Type} [Inhabited α] (test : α → α → Option Bool) :
    ∀ (xs : List α) (done : List (List α)) (cur : List α),
      chunkM test done cur xs = (chunkM test [] cur xs).map (done ++ ·) := by
  intro xs
  induction xs with
  | nil => intro done cur; rfl
  | cons x xs ih =>
    intro done cur
    match h : test (cur.getLastD default) x with
    | none => simp only [chunkM, h]; rfl
    | some true =>
      simp only [chunkM, h]
      rw [ih (done ++ [cur]), ih ([] ++ [cur]), Option.map_map]
      cases chunkM test [] [x] xs <;> simp [List.append_assoc]
    | some false =>
      simp only [chunkM, h]
      exact ih done (cur ++ [x])

/-- Every test `chunkM` performs is between two elements adjacent in
`cur.getLastD default :: xs`; on success all those tests returned `some`. -/
theorem chunkM_chain_isSome {α : Type} [Inhabited α] (test : α → α → Option Bool) :
    ∀ (xs : List α) (done : List (List α)) (cur : List α) (ms : List (List α)),
      chunkM test done cur xs = some ms →
      List.Chain' (fun a b => (test a b).isSome = true) (cur.getLastD default :: xs) := by
  intro xs
  induction xs with
  | nil => intro done cur ms _; simp
  | cons x xs ih =>
    intro done cur ms h
    match htest : test (cur.getLastD default) x with
    | none =>
      simp only [chunkM, htest] at h
      exact Option.noConfusion h
    | some v =>
      have hnext : List.Chain' (fun a b => (test a b).isSome = true) (x :: xs) := by
        cases v with
        | true =>
          simp only [chunkM, htest] at h
          have h2 := ih (done ++ [cur]) [x] ms h
          simpa using h2
        | false =>
          simp only [chunkM, htest] at h
          have h2 := ih done (cur ++ [x]) ms h
          rwa [List.getLastD_concat] at h2
      refine List.chain'_cons'.mpr ⟨?_, hnext⟩
      intro y hy
      simp only [List.head?_cons, Option.mem_def, Option.some.injEq] at hy
      subst hy
      rw [htest]
      rfl

/-- The core specification of `chunkM`: on success, the chunks concatenate to
the input, every chunk is non-empty, the first chunk starts like `cur`, the
within-chunk adjacent tests are all `some false` (given that `cur` itself
already satisfies that), and the boundary tests between consecutive chunks
are all `some true`. -/
theorem chunkM_spec {α : Type} [Inhabited α] (test : α → α → Option Bool) :
    ∀ (xs : List α) (cur : List α) (ms : List (List α)),
      cur ≠ [] →
      chunkM test [] cur xs = some ms →
      ms.flatten = cur ++ xs ∧
      ms ≠ [] ∧
      (∀ c ∈ ms, c ≠ []) ∧
      (∀ c0, ms.head? = some c0 → c0.head? = cur.head?) ∧
      ((List.Chain' (fun a b => test a b = some false) cur) →
        ∀ c ∈ ms, List.Chain' (fun a b => test a b = some false) c) ∧
      List.Chain' (fun c d => ∀ x ∈ c.getLast?, ∀ y ∈ d.head?, test x y = some true) ms := by
  intro xs
  induction xs with
  | nil =>
    intro cur ms hcur h
    simp only [chunkM, List.nil_append, Option.some.injEq] at h
    subst h
    refine ⟨by simp, by simp, ?_, ?_, ?_, List.chain'_singleton cur⟩
    · intro c hc; simp only [List.mem_singleton] at hc; subst hc; exact hcur
    · intro c0 hc0
      simp only [List.head?_cons, Option.some.injEq] at hc0
      subst hc0; rfl
    · intro hch c hc; simp only [List.mem_singleton] at hc; subst hc; exact hch
  | cons x xs ih =>
    intro cur ms hcur h
    match htest : test (cur.getLastD default) x with
    | none =>
      simp only [chunkM, htest] at h
      exact Option.noConfusion h
    | some false =>
      simp only [chunkM, htest] at h
      obtain ⟨hA, hN, hB, hC, hD, hE⟩ := ih (cur ++ [x]) ms (by simp) h
      refine ⟨by simpa using hA, hN, hB, ?_, ?_, hE⟩
      · intro c0 hc0
        rw [hC c0 hc0]
        exact List.head?_append_of_ne_nil cur hcur
      · intro hch
        refine hD ?_
        rw [List.chain'_append]
        refine ⟨hch, List.chain'_singleton x, ?_⟩
        intro a ha y hy
        simp only [List.head?_cons, Option.mem_def, Option.some.injEq] at hy
        subst hy
        have hlast : cur.getLastD default = a := by
          rw [Option.mem_def] at ha
          rw [List.getLastD_eq_getLast?, ha]; rfl
        rwa [hlast] at htest
    | some true =>
      simp only [chunkM, htest] at h
      rw [chunkM_done_append] at h
      match h2 : chunkM test [] [x] xs with
      | none => rw [h2] at h; exact Option.noConfusion h
      | some ms' =>
        rw [h2] at h
        simp only [Option.map_some', Option.some.injEq, List.nil_append,
          List.singleton_append] at h
        subst h
        obtain ⟨hA, hN, hB, hC, hD, hE⟩ := ih [x] ms' (by simp) h2
        refine ⟨?_, by simp, ?_, ?_, ?_, ?_⟩
        · simp only [List.flatten_cons, hA]
          simp
        · intro c hc
          rcases List.mem_cons.mp hc with hc | hc
          · subst hc; exact hcur
          · exact hB c hc
        · intro c0 hc0
          simp only [List.head?_cons, Option.some.injEq] at hc0
          subst hc0; rfl
        · intro hch c hc
          rcases List.mem_cons.mp hc with hc | hc
          · subst hc; exact hch
          · exact hD (List.chain'_singleton x) c hc
        · refine List.chain'_cons'.mpr ⟨?_, hE⟩
          intro c' hc' a ha y hy
          have hhd : c'.head? = some x := by
            rw [Option.mem_def] at hc'
            rw [hC c' hc']; rfl
          rw [hhd] at hy
          simp only [Option.mem_def, Option.some.injEq] at hy
          subst hy
          have hlast : cur.getLastD default = a := by
            rw [Option.mem_def] at ha
            rw [List.getLastD_eq_getLast?, ha]; rfl
          rwa [hlast] at htest

/-- If every adjacent test along the walk says "extend", everything ends up
in one chunk. -/
theorem chunkBy_all_extend {α : Type} [Inhabited α] (p : α → α → Bool) :
    ∀ (xs : List α) (done : List (List α)) (cur : List α), cur ≠ [] →
      List.Chain' (fun a b => p a b = false) (cur.getLastD default :: xs) →
      chunkBy p done cur xs = done ++ [cur ++ xs] := by
  intro xs
  induction xs with
  | nil => intro done cur _ _; simp [chunkBy]
  | cons x xs ih =>
    intro done cur hcur hch
    rw [List.chain'_cons] at hch
    obtain ⟨h1, h2⟩ := hch
    simp only [chunkBy, h1, Bool.false_eq_true, if_false]
    have h3 := ih done (cur ++ [x]) (by simp) (by rwa [List.getLastD_concat])
    rw [h3]
    simp

/-!
## Stage 1: `group_elements`
-/

/-- Mirrors `groups[-1].append(idx)`. -/
def appendToLast : List (List Nat) → Nat → List (List Nat)
  | [], i => [[i]]
  | [c], i => [c ++ [i]]
  | c :: cs, i => c :: appendToLast cs i

/-- The loop of `group_elements`: walk the enumerated vocalization list with
the `last_in_target` state. -/
def groupLoop (targets : List String) (alias_fn : String → String)
    (groups : List (List Nat)) (last_in_target : Bool) :
    List (Nat × Vocalization) → List (List Nat)
  | [] => groups
  | (idx, voc) :: rest =>
    if targets.contains (alias_fn voc.name) then
      if last_in_target then groupLoop targets alias_fn (appendToLast groups idx) true rest
      else groupLoop targets alias_fn (groups ++ [[idx]]) true rest
    else groupLoop targets alias_fn groups false rest

/-- Mirrors `group_elements(voc_list, targets, alias_fn)`. -/
def group_elements (voc_list : List Vocalization) (targets : List String)
    (alias_fn : String → String) : List VocGroup :=
  (groupLoop targets alias_fn [] false voc_list.enum).map
    fun voc_idxs => ⟨voc_list, voc_idxs⟩

/-!
## Stage 2: `anneal_groups`
-/

/-- The decision `anneal_groups` takes at an adjacent input pair `(cg, ng)`:
start a new output group iff some barrier `b` satisfies
`cg.stop <= b <= ng.start` (`song_between`) or the silence strictly exceeds
the threshold. -/
def annealNew (anneal_threshold : Int) (breaks : List Int) (cg ng : VocGroup) : Bool :=
  breaks.any (fun b => decide (cg.stop ≤ b) && decide (b ≤ ng.start)) ||
    decide (deltaG cg ng > anneal_threshold)

/-- Mirrors `anneal_groups(groups, anneal_threshold, breaks)`: the chunks
of adjacent input groups not separated by `annealNew` have their index
lists concatenated; every output group carries `groups[0].voc_list`. -/
def anneal_groups (groups : List VocGroup) (anneal_threshold : Int)
    (breaks : List Int) : List VocGroup :=
  match groups with
  | [] => []
  | g :: gs =>
    ((chunkBy (annealNew anneal_threshold breaks) [] [g] gs).map
      fun c => (c.map VocGroup.voc_idxs).flatten).map
      fun voc_idxs => ⟨g.voc_list, voc_idxs⟩

/-!
## Stage 3: `split_groups`
-/

/-- The cut decision of `split_groups` between consecutive members `cn, nn`
of one group's index list. -/
def splitCut (vl : List Vocalization) (split_threshold : Int) (cn nn : Nat) : Bool :=
  decide (delta_t (vl.getD cn default) (vl.getD nn default) ≥ split_threshold)

/-- One group's index list, cut at every long internal silence. -/
def splitIdxs (vl : List Vocalization) (split_threshold : Int) :
    List Nat → List (List Nat)
  | [] => [[]]
  | i :: is => chunkBy (splitCut vl split_threshold) [] [i] is

/-- Mirrors `split_groups(groups, split_threshold)`; as in the source, every
output group carries `groups[0].voc_list`. -/
def split_groups (groups : List VocGroup) (split_threshold : Int) : List VocGroup :=
  match groups with
  | [] => []
  | g0 :: _ =>
    (groups.flatMap fun grp => splitIdxs grp.voc_list split_threshold grp.voc_idxs).map
      fun voc_idxs => ⟨g0.voc_list, voc_idxs⟩

/-!
## The `Bout` data type
-/

/-- Mirrors class `Bout`, with the fields `Bout.__init__` stores.  `motifs`
is `none` ("None", not yet parsed) until `parse_motifs` runs. -/
structure Bout where
  voc_list : List Vocalization
  intro_notes : List Vocalization
  intro_idxs : List Nat
  syllables : List Vocalization
  syll_idxs : List Nat
  motifs : Option (List VocGroup)
  intervening_idxs : List Nat
  intervening_vocs : List Vocalization
deriving DecidableEq

instance : Inhabited Bout := ⟨⟨[], [], [], [], [], none, [], []⟩⟩

/-- Mirrors `Bout.__init__(voc_list, intro_group, syllable_group)`; `none`
models the `ValueError` raised by `min`/`max` over the empty combined index
list when both groups are empty. -/
def mkBout (voc_list : List Vocalization) (intro_group syllable_group : VocGroup) :
    Option Bout :=
  match intro_group.voc_idxs ++ syllable_group.voc_idxs with
  | [] => none
  | i :: is =>
    let combined := i :: is
    let lowest := combined.foldl Nat.min i
    let highest := combined.foldl Nat.max i
    let intervening := (List.range' lowest (highest - lowest)).filter
      fun k => !(combined.contains k)
    some
      { voc_list := voc_list
        intro_notes := intro_group.vocalizations
        intro_idxs := intro_group.voc_idxs
        syllables := syllable_group.vocalizations
        syll_idxs := syllable_group.voc_idxs
        motifs := none
        intervening_idxs := intervening
        intervening_vocs := intervening.map fun k => voc_list.getD k default }

/-- Mirrors `Bout.first`: `intro_notes[0]` if there are intro notes, else
`syllables[0]`; `none` models the `IndexError` when both are empty. -/
def Bout.first (b : Bout) : Option Vocalization :=
  match b.intro_notes with
  | [] => b.syllables.head?
  | v :: _ => some v

/-- Mirrors `Bout.last`: `syllables[-1]` when `self.motifs` is truthy (i.e. a
non-empty list), else `intro_notes[-1]`; `none` models the `IndexError`. -/
def Bout.last (b : Bout) : Option Vocalization :=
  match b.motifs with
  | some (_ :: _) => b.syllables.getLast?
  | _ => b.intro_notes.getLast?

/-- Mirrors `Bout.start = self.first.start`. -/
def Bout.start (b : Bout) : Option Int :=
  b.first.map Vocalization.start

/-- Mirrors `Bout.stop = self.last.stop`. -/
def Bout.stop (b : Bout) : Option Int :=
  b.last.map Vocalization.stop

/-- Mirrors `Bout.duration = (self.stop - self.start).total_seconds()`. -/
def Bout.duration (b : Bout) : Option Int :=
  match b.start, b.stop with
  | some s, some p => some (p - s)
  | _, _ => none

/-- Mirrors `delta_t` applied to two `Bout`s (as `define_phrases` does); `none` when
either derived endpoint is undefined. -/
def deltaB (first second : Bout) : Option Int :=
  match second.start, first.stop with
  | some s, some p => some (s - p)
  | _, _ => none

/-!
## Stage 5: `define_motifs`
-/

/-- Mirrors Python `list.index`: position of the first occurrence; `none`
models the `ValueError` when the element is absent. -/
def seqPos (song_sequence : List String) (s : String) : Option Nat :=
  match song_sequence with
  | [] => none
  | x :: xs => if x = s then some 0 else (seqPos xs s).map (· + 1)

/-- The decision `define_motifs` takes between the previous syllable (the
last one of the current motif) and the next one: a new motif begins iff the
next one's template position is strictly earlier. -/
def motifNew (vl : List Vocalization) (song_sequence : List String)
    (alias_fn : String → String) (prev next : Nat) : Option Bool :=
  match seqPos song_sequence (alias_fn ((vl.getD next default).name)),
        seqPos song_sequence (alias_fn ((vl.getD prev default).name)) with
  | some pn, some pp => some (decide (pn < pp))
  | _, _ => none

/-- Mirrors `define_motifs(voc_list, syllable_idxs, song_sequence, alias_fn)`. -/
def define_motifs (voc_list : List Vocalization) (syllable_idxs : List Nat)
    (song_sequence : List String) (alias_fn : String → String) :
    Option (List VocGroup) :=
  match syllable_idxs with
  | [] => some []
  | i :: is =>
    (chunkM (motifNew voc_list song_sequence alias_fn) [] [i] is).map
      (List.map fun idx_list => (⟨voc_list, idx_list⟩ : VocGroup))

/-- Mirrors `Bout.parse_motifs(seq, alias)` (an in-place mutation in Python,
modelled by returning the updated bout). -/
def Bout.parse_motifs (b : Bout) (seq : List String) (alias_fn : String → String) :
    Option Bout :=
  (define_motifs b.voc_list b.syll_idxs seq alias_fn).map
    fun ms => { b with motifs := some ms }

/-!
## Stage 4: `define_bouts`
-/

/-- Running minimum of Python `min(..., key=...)`: the first element whose
key is minimal wins. -/
def minByKeyAux (key : Nat → Int) (m : Nat) : List Nat → Nat
  | [] => m
  | y :: ys => if key y < key m then minByKeyAux key y ys else minByKeyAux key m ys

/-- Mirrors Python `min(lst, key=key)`; `none` models the `ValueError` on an
empty sequence. -/
def minByKey (key : Nat → Int) : List Nat → Option Nat
  | [] => none
  | x :: xs => some (minByKeyAux key x xs)

/-- Mirrors `[i for i,g in enumerate(sg_left) if ig.stop < g.start]`. -/
def candIdxs (ig : VocGroup) (pool : List VocGroup) : List Nat :=
  (List.range pool.length).filter fun i => decide (ig.stop < (pool.getD i default).start)

/-- Stable insertion modelling Python's stable `sorted(..., key=...)`: an
element is inserted before the first element with a strictly larger key, so
elements with equal keys keep their input order. -/
def insertByKey {α : Type} (key : α → Int) (x : α) : List α → List α
  | [] => [x]
  | y :: ys => if key x ≤ key y then x :: y :: ys else y :: insertByKey key x ys

/-- Stable sort by key (insertion sort). -/
def sortByKey {α : Type} (key : α → Int) : List α → List α
  | [] => []
  | x :: xs => insertByKey key x (sortByKey key xs)

/-- The per-intro-group loop of `define_bouts`, returning the bouts built so
far and the remaining ("not yet consumed") song-group pool.  `none` models
the uncaught `ValueError` from `min` over an empty candidate sequence, or
any error from the `Bout` constructor. -/
def defineBoutsLoop (anneal_threshold : Int) :
    List VocGroup → List VocGroup → Option (List Bout × List VocGroup)
  | [], pool => some ([], pool)
  | ig :: igs, pool =>
    match minByKey (fun i => deltaG ig (pool.getD i default)) (candIdxs ig pool) with
    | none => none
    | some near_idx =>
      let near_sg := pool.getD near_idx default
      if deltaG ig near_sg ≤ anneal_threshold then
        match mkBout ig.voc_list ig near_sg with
        | none => none
        | some b =>
          match defineBoutsLoop anneal_threshold igs (pool.eraseIdx near_idx) with
          | none => none
          | some (bs, left) => some (b :: bs, left)
      else
        match mkBout ig.voc_list ig ⟨ig.voc_list, []⟩ with
        | none => none
        | some b =>
          match defineBoutsLoop anneal_threshold igs pool with
          | none => none
          | some (bs, left) => some (b :: bs, left)

/-- Mirrors `bouts.extend([Bout(g.voc_list, VocGroup(g.voc_list), g) for g in sg_left])`. -/
def leftoverBouts : List VocGroup → Option (List Bout)
  | [] => some []
  | g :: gs =>
    match mkBout g.voc_list ⟨g.voc_list, []⟩ g with
    | none => none
    | some b =>
      match leftoverBouts gs with
      | none => none
      | some bs => some (b :: bs)

/-- Mirrors `define_bouts(intro_groups, song_groups, anneal_threshold)`.
The final sort key is Python's `b.start`; every constructed bout has a
defined start, so the `getD 0` fallback is never exercised. -/
def define_bouts (intro_groups song_groups : List VocGroup)
    (anneal_threshold : Int) : Option (List Bout) :=
  match defineBoutsLoop anneal_threshold intro_groups song_groups with
  | none => none
  | some (bouts, sg_left) =>
    match leftoverBouts sg_left with
    | none => none
    | some extra =>
      some (sortByKey (fun b => (Bout.start b).getD 0) (bouts ++ extra))

/-!
## Stage 6: `define_phrases`
-/

/-- The decision `define_phrases` takes between the last bout of the current
phrase and the next bout: a new phrase begins iff the silence strictly
exceeds the threshold; `none` when a derived endpoint is undefined. -/
def phraseNew (anneal_threshold : Int) (prev b : Bout) : Option Bool :=
  (deltaB prev b).map fun d => decide (d > anneal_threshold)

/-- Mirrors `define_phrases(bout_list, anneal_threshold)`. -/
def define_phrases (bout_list : List Bout) (anneal_threshold : Int) :
    Option (List (List Bout)) :=
  match bout_list with
  | [] => some []
  | b :: bs => chunkM (phraseNew anneal_threshold) [] [b] bs

/-!
## `BirdMetadata` and the orchestrator
-/

/-- Mirrors class `BirdMetadata`. -/
structure BirdMetadata where
  name : String
  syllables : List String
  intro_note : String
  intro_aliases : List String
  ignore : List String

/-- Mirrors `BirdMetadata.alias`.  Python string operations are modelled on
the character list: `v[-1] == '*'` is a last-character test and
`v.split('_')[0]` keeps the characters before the first underscore. -/
def BirdMetadata.alias (bm : BirdMetadata) (voc : String)
    (elide_garbled elide_versions : Bool) : String :=
  if voc = "" ∨ voc ∈ bm.ignore then voc
  else
    let v1 := if elide_garbled ∧ voc.toList.getLastD ' ' = '*'
      then String.mk voc.toList.dropLast else voc
    let v2 := if elide_versions ∧ v1.toList.contains '_' then
        let garb := v1.toList.contains '*'
        let stem := String.mk (v1.toList.takeWhile (· ≠ '_'))
        if garb ∧ ¬ elide_garbled then stem ++ "*" else stem
      else v1
    if v2 ∈ bm.intro_aliases then bm.intro_note else v2

/-- Default thresholds, in integer ticks (the Python values are in seconds;
one second is 1000000 ticks, `datetime`'s native resolution). -/
def INTRO_GROUP_ANNEAL : Int := 500000

def SYLLABLE_GROUP_ANNEAL : Int := 500000

def INTRO_GROUP_SPLIT : Int := 800000

def SYLLABLE_GROUP_SPLIT : Int := 800000

def BOUT_ANNEAL : Int := 500000

def PHRASE_ANNEAL : Int := 2000000

/-- Mirrors `full_parse`.  `parse_motifs` mutates the bouts in place in
Python; here the bout list is rebuilt.  The phrase sort key is Python's
`p[0].start`; phrases are non-empty and their bouts have defined starts, so
the fallbacks are never exercised. -/
def full_parse (voc_list : List Vocalization) (bird_meta : BirdMetadata)
    (intro_anneal song_anneal intro_split song_split bout_anneal : Int)
    (parseMotifsFlag : Bool) (phrase_anneal : Int) :
    Option (List (List Bout)) :=
  let af := fun s => bird_meta.alias s true true
  let in_grps := group_elements voc_list [bird_meta.intro_note] af
  let song_grps := group_elements voc_list bird_meta.syllables af
  let ann_ing := anneal_groups in_grps intro_anneal (song_grps.map VocGroup.start)
  let ann_sg := anneal_groups song_grps song_anneal (in_grps.map VocGroup.start)
  let split_ing := split_groups ann_ing intro_split
  let split_sg := split_groups ann_sg song_split
  match define_bouts split_ing split_sg bout_anneal with
  | none => none
  | some bouts =>
    match (if parseMotifsFlag
           then bouts.mapM fun b => b.parse_motifs bird_meta.syllables af
           else some bouts) with
    | none => none
    | some bouts2 =>
      match define_phrases bouts2 phrase_anneal with
      | none => none
      | some phrases =>
        some (sortByKey (fun p => ((p.headD default).start).getD 0) phrases)

/-!
## Helper lemmas
-/

theorem mkBout_eq (vl : List Vocalization) (ig sg : VocGroup) (b : Bout)
    (h : mkBout vl ig sg = some b) :
    b.intro_idxs = ig.voc_idxs ∧ b.syll_idxs = sg.voc_idxs ∧ b.motifs = none ∧
      b.intro_notes = ig.vocalizations ∧ b.syllables = sg.vocalizations := by
  match h2 : ig.voc_idxs ++ sg.voc_idxs with
  | [] =>
    simp only [mkBout, h2] at h
    exact Option.noConfusion h
  | i :: is =>
    simp only [mkBout, h2, Option.some.injEq] at h
    subst h
    exact ⟨rfl, rfl, rfl, rfl, rfl⟩

theorem define_motifs_ne_nil (vl : List Vocalization) (idxs : List Nat)
    (seq : List String) (af : String → String) (ms : List VocGroup)
    (hi : idxs ≠ []) (h : define_motifs vl idxs seq af = some ms) : ms ≠ [] := by
  match idxs with
  | [] => exact absurd rfl hi
  | i :: is =>
    simp only [define_motifs] at h
    match h2 : chunkM (motifNew vl seq af) [] [i] is with
    | none => rw [h2] at h; exact Option.noConfusion h
    | some cs =>
      rw [h2] at h
      simp only [Option.map_some', Option.some.injEq] at h
      subst h
      have := (chunkM_spec (motifNew vl seq af) is [i] cs (by simp) h2).2.1
      simpa using this

theorem getD_mem {α : Type} (l : List α) (k : Nat) (d : α) (h : k < l.length) :
    l.getD k d ∈ l := by
  induction l generalizing k with
  | nil => simp at h
  | cons x xs ih =>
    cases k with
    | zero => simp
    | succ n =>
      simp only [List.getD_cons_succ]
      exact List.mem_cons_of_mem x (ih n (by simpa using h))

theorem getD_cons_eraseIdx_perm {α : Type} (l : List α) (k : Nat) (d : α)
    (h : k < l.length) : (l.getD k d :: l.eraseIdx k).Perm l := by
  induction l generalizing k with
  | nil => simp at h
  | cons x xs ih =>
    cases k with
    | zero => simp
    | succ n =>
      simp only [List.getD_cons_succ, List.eraseIdx_cons_succ]
      have hp := ih n (by simpa using h)
      exact ((List.Perm.swap x (xs.getD n d) (xs.eraseIdx n)).trans (hp.cons x))

theorem insertByKey_perm {α : Type} (key : α → Int) (x : α) (l : List α) :
    (insertByKey key x l).Perm (x :: l) := by
  induction l with
  | nil => simp [insertByKey]
  | cons y ys ih =>
    simp only [insertByKey]
    by_cases h : key x ≤ key y
    · rw [if_pos h]
    · rw [if_neg h]
      exact (ih.cons y).trans (List.Perm.swap x y ys)

theorem sortByKey_perm {α : Type} (key : α → Int) (l : List α) :
    (sortByKey key l).Perm l := by
  induction l with
  | nil => simp [sortByKey]
  | cons x xs ih =>
    exact (insertByKey_perm key x (sortByKey key xs)).trans (ih.cons x)

/-!
## Concrete instances used by witnesses and counterexamples
-/

/-- Two-event timeline: an "A" at ticks 0-1 and a "B" at ticks 2-3. -/
def cexVl2 : List Vocalization := [⟨0, 1, "A"⟩, ⟨2, 3, "B"⟩]

/-- Subject configuration whose song syllables are "A" and "B". -/
def cexBM : BirdMetadata :=
  { name := "bird", syllables := ["A", "B"], intro_note := "i",
    intro_aliases := [], ignore := [] }

/-- The bout `mkBout cexVl2 ⟨cexVl2, [0]⟩ ⟨cexVl2, [1]⟩` constructs. -/
def cexB1 : Bout :=
  { voc_list := cexVl2
    intro_notes := [⟨0, 1, "A"⟩]
    intro_idxs := [0]
    syllables := [⟨2, 3, "B"⟩]
    syll_idxs := [1]
    motifs := none
    intervening_idxs := []
    intervening_vocs := [] }

/-- The bout `cexB1` after `parse_motifs` with canonical sequence `["B"]`. -/
def cexB2 : Bout :=
  { cexB1 with motifs := some [⟨cexVl2, [1]⟩] }

/-- The intro-less bout `full_parse cexVl2 cexBM 1 1 10 10 1 false 2` builds. -/
def cexIntrolessBout : Bout :=
  { voc_list := cexVl2
    intro_notes := []
    intro_idxs := []
    syllables := [⟨0, 1, "A"⟩, ⟨2, 3, "B"⟩]
    syll_idxs := [0, 1]
    motifs := none
    intervening_idxs := []
    intervening_vocs := [] }

/-!
## C10
-/

/-- C10: constructing a `Bout` from two empty groups fails (the `min`/`max`
over the empty combined index list raises), and every successfully
constructed `Bout` has at least one index in its intro or syllable
sub-group. -/
theorem bout_nonempty_construction :
    (∀ (vl : List Vocalization) (ig sg : VocGroup),
        ig.voc_idxs = [] → sg.voc_idxs = [] → mkBout vl ig sg = none) ∧
    (∀ (vl : List Vocalization) (ig sg : VocGroup) (b : Bout),
        mkBout vl ig sg = some b → b.intro_idxs ++ b.syll_idxs ≠ []) := by
  constructor
  · intro vl ig sg h1 h2
    simp [mkBout, h1, h2]
  · intro vl ig sg b h
    obtain ⟨hi, hs, _, _, _⟩ := mkBout_eq vl ig sg b h
    rw [hi, hs]
    intro hc
    simp only [mkBout, hc] at h
    exact Option.noConfusion h

/-- Witness for C10 at concrete inputs. -/
theorem bout_nonempty_construction_witness :
    mkBout cexVl2 ⟨cexVl2, []⟩ ⟨cexVl2, []⟩ = none ∧
    cexB1.intro_idxs ++ cexB1.syll_idxs ≠ [] :=
  ⟨bout_nonempty_construction.1 cexVl2 ⟨cexVl2, []⟩ ⟨cexVl2, []⟩ rfl rfl,
   bout_nonempty_construction.2 cexVl2 ⟨cexVl2, [0]⟩ ⟨cexVl2, [1]⟩ cexB1 (by decide)⟩

/-!
## C1
-/

/-- C1 counterexample: a bout whose syllable sub-group is non-empty but whose
`motifs` field is still `None` derives `stop` from the intro group
(`some 1`), not from the last syllable event (whose stop is `3`). -/
theorem bout_stop_from_intro_cex :
    mkBout cexVl2 ⟨cexVl2, [0]⟩ ⟨cexVl2, [1]⟩ = some cexB1 ∧
    cexB1.syllables ≠ [] ∧
    cexB1.stop = some 1 ∧
    (cexB1.syllables.getLastD default).stop = 3 ∧
    cexB1.stop ≠ some ((cexB1.syllables.getLastD default).stop) := by decide

/-- C1 (amended): for a freshly constructed bout, `stop` is the stop of the
last intro event; after `parse_motifs` has run, `stop` is the stop of the
last syllable event when the syllable sub-group is non-empty and the stop of
the last intro event otherwise; `duration` is `stop - start` whenever both
endpoints are defined. -/
theorem bout_stop_duration_spec :
    ∀ (vl : List Vocalization) (ig sg : VocGroup) (seq : List String)
      (af : String → String) (b b2 : Bout),
      mkBout vl ig sg = some b →
      Bout.parse_motifs b seq af = some b2 →
      (b.stop = b.intro_notes.getLast?.map Vocalization.stop) ∧
      (b2.syllables ≠ [] → b2.stop = b2.syllables.getLast?.map Vocalization.stop) ∧
      (b2.syllables = [] → b2.stop = b2.intro_notes.getLast?.map Vocalization.stop) ∧
      (∀ s p, b2.start = some s → b2.stop = some p → b2.duration = some (p - s)) ∧
      (∀ s p, b.start = some s → b.stop = some p → b.duration = some (p - s)) := by
  intro vl ig sg seq af b b2 hmk hpm
  obtain ⟨hi, hs, hm, hn, hsy⟩ := mkBout_eq vl ig sg b hmk
  simp only [Bout.parse_motifs] at hpm
  match hdm : define_motifs b.voc_list b.syll_idxs seq af with
  | none => rw [hdm] at hpm; exact Option.noConfusion hpm
  | some ms =>
    rw [hdm] at hpm
    simp only [Option.map_some', Option.some.injEq] at hpm
    subst hpm
    refine ⟨?_, ?_, ?_, ?_, ?_⟩
    · simp [Bout.stop, Bout.last, hm]
    · intro hne
      have hidx : b.syll_idxs ≠ [] := by
        intro hc
        rw [hs] at hc
        simp only [VocGroup.vocalizations] at hsy
        rw [hsy] at hne
        rw [hc] at hne
        simp at hne
      have hms : ms ≠ [] := define_motifs_ne_nil _ _ _ _ _ hidx hdm
      match ms with
      | [] => exact absurd rfl hms
      | m :: ms2 => simp [Bout.stop, Bout.last]
    · intro hemp
      have hidx : b.syll_idxs = [] := by
        rw [hs]
        simp only [VocGroup.vocalizations] at hsy
        rw [hemp] at hsy
        exact (List.map_eq_nil_iff.mp hsy.symm)
      rw [hidx] at hdm
      simp only [define_motifs, Option.some.injEq] at hdm
      subst hdm
      simp [Bout.stop, Bout.last]
    · intro s p h1 h2
      simp [Bout.duration, h1, h2]
    · intro s p h1 h2
      simp [Bout.duration, h1, h2]

/-- Witness for C1 at concrete inputs. -/
theorem bout_stop_duration_spec_witness :
    (cexB1.stop = cexB1.intro_notes.getLast?.map Vocalization.stop) ∧
    (cexB2.syllables ≠ [] → cexB2.stop = cexB2.syllables.getLast?.map Vocalization.stop) ∧
    (cexB2.syllables = [] → cexB2.stop = cexB2.intro_notes.getLast?.map Vocalization.stop) ∧
    (∀ s p, cexB2.start = some s → cexB2.stop = some p → cexB2.duration = some (p - s)) ∧
    (∀ s p, cexB1.start = some s → cexB1.stop = some p → cexB1.duration = some (p - s)) :=
  bout_stop_duration_spec cexVl2 ⟨cexVl2, [0]⟩ ⟨cexVl2, [1]⟩ ["B"] id cexB1 cexB2
    (by decide) (by decide)

/-!
## C2
-/

theorem deltaB_none_of_stop_none (b y : Bout) (h : b.stop = none) :
    deltaB b y = none := by
  cases hy : y.start with
  | none => simp [deltaB, hy]
  | some s => simp [deltaB, hy, h]

/-- C2 counterexample: `full_parse` with `parse_motifs=False` on a timeline
holding only song syllables returns phrases even though the assembled bout
list consists of exactly one intro-less bout (whose `stop` is undefined). -/
theorem full_parse_introless_ok_cex :
    full_parse cexVl2 cexBM 1 1 10 10 1 false 2 = some [[cexIntrolessBout]] ∧
    cexIntrolessBout.intro_idxs = [] ∧
    cexIntrolessBout.motifs = none ∧
    cexIntrolessBout.stop = none := by decide

/-- C2 (amended): on a bout whose intro group is empty and whose `motifs`
field is still `None`, `last`, `stop` and `duration` all raise; consequently
`define_phrases` fails whenever such a bout occurs in any position other
than the last of the bout list (the last bout's `stop` is never read, so a
trailing intro-less bout does not by itself cause failure). -/
theorem introless_unparsed_bout_error_spec :
    (∀ b : Bout, b.intro_notes = [] → b.motifs = none →
      b.last = none ∧ b.stop = none ∧ b.duration = none) ∧
    (∀ (t : Int) (pre post : List Bout) (b : Bout),
      b.intro_notes = [] → b.motifs = none → post ≠ [] →
      define_phrases (pre ++ b :: post) t = none) := by
  have part1 : ∀ b : Bout, b.intro_notes = [] → b.motifs = none →
      b.last = none ∧ b.stop = none ∧ b.duration = none := by
    intro b h1 h2
    have hlast : b.last = none := by simp [Bout.last, h1, h2]
    have hstop : b.stop = none := by simp [Bout.stop, hlast]
    refine ⟨hlast, hstop, ?_⟩
    cases hst : b.start with
    | none => simp [Bout.duration, hst]
    | some s => simp [Bout.duration, hst, hstop]
  refine ⟨part1, ?_⟩
  intro t pre post b h1 h2 hpost
  have hstop : b.stop = none := (part1 b h1 h2).2.1
  have htest : ∀ y, phraseNew t b y = none := by
    intro y
    simp [phraseNew, deltaB_none_of_stop_none b y hstop]
  match post, hpost with
  | q :: post2, _ =>
    cases pre with
    | nil =>
      simp only [List.nil_append, define_phrases, chunkM]
      have : ([b].getLastD default) = b := rfl
      rw [this, htest q]
    | cons p pre2 =>
      have hform : (p :: pre2) ++ b :: q :: post2 =
          p :: ((pre2 ++ [b]) ++ q :: post2) := by simp
      rw [hform]
      simp only [define_phrases]
      match hres : chunkM (phraseNew t) [] [p] ((pre2 ++ [b]) ++ q :: post2) with
      | none => rfl
      | some ms =>
        exfalso
        have hchain := chunkM_chain_isSome (phraseNew t) _ [] [p] ms hres
        have : ([p].getLastD default) = p := rfl
        rw [this] at hchain
        have hchain2 : List.Chain' (fun a b => (phraseNew t a b).isSome = true)
            ((p :: (pre2 ++ [b])) ++ q :: post2) := by
          simpa using hchain
        obtain ⟨_, _, hbd⟩ := List.chain'_append.mp hchain2
        have hlastb : (p :: (pre2 ++ [b])).getLast? = some b := by
          rw [show p :: (pre2 ++ [b]) = (p :: pre2) ++ [b] from rfl,
            List.getLast?_concat]
        have hb := hbd b (Option.mem_def.mpr hlastb) q (by simp)
        rw [htest q] at hb
        simp at hb

/-- Witness for C2 at concrete inputs. -/
theorem introless_unparsed_bout_error_spec_witness :
    (cexIntrolessBout.last = none ∧ cexIntrolessBout.stop = none ∧
      cexIntrolessBout.duration = none) ∧
    define_phrases ([cexB1] ++ cexIntrolessBout :: [cexB1]) 5 = none :=
  ⟨introless_unparsed_bout_error_spec.1 cexIntrolessBout rfl rfl,
   introless_unparsed_bout_error_spec.2 5 [cexB1] [cexB1] cexIntrolessBout rfl rfl
     (List.cons_ne_nil _ _)⟩

/-!
## C3 and C4
-/

theorem annealNew_no_barrier (t : Int) (breaks : List Int) (cg ng : VocGroup)
    (h : ∀ b ∈ breaks, ¬(cg.stop ≤ b ∧ b ≤ ng.start)) :
    annealNew t breaks cg ng = decide (deltaG cg ng > t) := by
  have hany : (breaks.any fun b => decide (cg.stop ≤ b) && decide (b ≤ ng.start)) = false := by
    rw [List.any_eq_false]
    intro x hx
    simp only [Bool.and_eq_true, decide_eq_true_eq]
    exact h x hx
  simp [annealNew, hany]

theorem annealNew_barrier (t : Int) (breaks : List Int) (cg ng : VocGroup)
    (b : Int) (hb : b ∈ breaks) (h1 : cg.stop ≤ b) (h2 : b ≤ ng.start) :
    annealNew t breaks cg ng = true := by
  have hany : (breaks.any fun b => decide (cg.stop ≤ b) && decide (b ≤ ng.start)) = true := by
    rw [List.any_eq_true]
    exact ⟨b, hb, by simp [h1, h2]⟩
  simp [annealNew, hany]

theorem chunkBy_pair {α : Type} [Inhabited α] (p : α → α → Bool) (a b : α) :
    chunkBy p [] [a] [b] = if p a b then [[a], [b]] else [[a, b]] := by
  by_cases h : p a b
  · simp [chunkBy, h]
  · simp only [Bool.not_eq_true] at h
    simp [chunkBy, h]

theorem chunkBy_cons_true {α : Type} [Inhabited α] (p : α → α → Bool)
    (done : List (List α)) (cur : List α) (x : α) (xs : List α)
    (h : p (cur.getLastD default) x = true) :
    chunkBy p done cur (x :: xs) = chunkBy p (done ++ [cur]) [x] xs := by
  simp only [chunkBy, h, if_true]

theorem chunkBy_cons_false {α : Type} [Inhabited α] (p : α → α → Bool)
    (done : List (List α)) (cur : List α) (x : α) (xs : List α)
    (h : p (cur.getLastD default) x = false) :
    chunkBy p done cur (x :: xs) = chunkBy p done (cur ++ [x]) xs := by
  simp only [chunkBy, h, Bool.false_eq_true, if_false]

/-- C3: with no barrier in between, `anneal_groups` merges an adjacent pair
exactly when the silence is at most the threshold (equality merges), and
`split_groups` cuts between two consecutive members exactly when the gap is
at least the threshold (equality cuts); stated both for the walk at an
arbitrary position (the previous group or member is the last element of the
chunk being accumulated) and for a two-element input. -/
theorem anneal_split_threshold_boundary :
    (∀ (t : Int) (breaks : List Int) (done : List (List VocGroup))
       (cur : List VocGroup) (ng : VocGroup) (rest : List VocGroup),
      (∀ b ∈ breaks, ¬((cur.getLastD default).stop ≤ b ∧ b ≤ ng.start)) →
      chunkBy (annealNew t breaks) done cur (ng :: rest) =
        if deltaG (cur.getLastD default) ng ≤ t
        then chunkBy (annealNew t breaks) done (cur ++ [ng]) rest
        else chunkBy (annealNew t breaks) (done ++ [cur]) [ng] rest) ∧
    (∀ (vl : List Vocalization) (t : Int) (done : List (List Nat))
       (cur : List Nat) (nn : Nat) (rest : List Nat),
      chunkBy (splitCut vl t) done cur (nn :: rest) =
        if delta_t (vl.getD (cur.getLastD default) default) (vl.getD nn default) ≥ t
        then chunkBy (splitCut vl t) (done ++ [cur]) [nn] rest
        else chunkBy (splitCut vl t) done (cur ++ [nn]) rest) ∧
    (∀ (cg ng : VocGroup) (t : Int) (breaks : List Int),
      cg.voc_idxs ≠ [] → ng.voc_idxs ≠ [] →
      (∀ b ∈ breaks, ¬(cg.stop ≤ b ∧ b ≤ ng.start)) →
      anneal_groups [cg, ng] t breaks =
        if deltaG cg ng ≤ t
        then [⟨cg.voc_list, cg.voc_idxs ++ ng.voc_idxs⟩]
        else [⟨cg.voc_list, cg.voc_idxs⟩, ⟨cg.voc_list, ng.voc_idxs⟩]) ∧
    (∀ (vl : List Vocalization) (t : Int) (i j : Nat),
      i < vl.length → j < vl.length →
      split_groups [⟨vl, [i, j]⟩] t =
        if delta_t (vl.getD i default) (vl.getD j default) ≥ t
        then [⟨vl, [i]⟩, ⟨vl, [j]⟩]
        else [⟨vl, [i, j]⟩]) := by
  refine ⟨?_, ?_, ?_, ?_⟩
  · intro t breaks done cur ng rest hbar
    have hann := annealNew_no_barrier t breaks (cur.getLastD default) ng hbar
    by_cases h : deltaG (cur.getLastD default) ng ≤ t
    · rw [if_pos h]
      refine chunkBy_cons_false _ done cur ng rest ?_
      rw [hann, decide_eq_false_iff_not]
      exact not_lt.mpr h
    · rw [if_neg h]
      refine chunkBy_cons_true _ done cur ng rest ?_
      rw [hann, decide_eq_true_eq]
      exact not_le.mp h
  · intro vl t done cur nn rest
    by_cases h : delta_t (vl.getD (cur.getLastD default) default) (vl.getD nn default) ≥ t
    · rw [if_pos h]
      refine chunkBy_cons_true _ done cur nn rest ?_
      simp only [splitCut, decide_eq_true_eq]
      exact h
    · rw [if_neg h]
      refine chunkBy_cons_false _ done cur nn rest ?_
      simp only [splitCut, decide_eq_false_iff_not]
      exact h
  · intro cg ng t breaks _hcg _hng hbar
    have hann := annealNew_no_barrier t breaks cg ng hbar
    simp only [anneal_groups]
    rw [chunkBy_pair, hann]
    by_cases h : deltaG cg ng ≤ t
    · rw [if_pos h]
      have hd : decide (deltaG cg ng > t) = false := by
        rw [decide_eq_false_iff_not]
        exact not_lt.mpr h
      rw [hd]
      simp
    · rw [if_neg h]
      have hd : decide (deltaG cg ng > t) = true := by
        rw [decide_eq_true_eq]
        exact not_le.mp h
      rw [hd]
      simp
  · intro vl t i j _hi _hj
    simp only [split_groups, List.flatMap_cons, List.flatMap_nil, splitIdxs]
    rw [chunkBy_pair]
    by_cases h : delta_t (vl.getD i default) (vl.getD j default) ≥ t
    · rw [if_pos h]
      have hd : splitCut vl t i j = true := by
        simp only [splitCut, decide_eq_true_eq]
        exact h
      rw [hd]
      simp
    · rw [if_neg h]
      have hd : splitCut vl t i j = false := by
        simp only [splitCut, decide_eq_false_iff_not]
        exact h
      rw [hd]
      simp

/-- Witness for C3 at concrete inputs (silence of 1 tick between the two
events of `cexVl2`). -/
theorem anneal_split_threshold_boundary_witness :
    (chunkBy (annealNew 1 []) [] [(⟨cexVl2, [0]⟩ : VocGroup)] (⟨cexVl2, [1]⟩ :: []) =
      if deltaG ([(⟨cexVl2, [0]⟩ : VocGroup)].getLastD default) ⟨cexVl2, [1]⟩ ≤ 1
      then chunkBy (annealNew 1 []) [] ([(⟨cexVl2, [0]⟩ : VocGroup)] ++ [⟨cexVl2, [1]⟩]) []
      else chunkBy (annealNew 1 []) ([] ++ [[(⟨cexVl2, [0]⟩ : VocGroup)]]) [⟨cexVl2, [1]⟩] []) ∧
    (chunkBy (splitCut cexVl2 1) [] [0] (1 :: []) =
      if delta_t (cexVl2.getD ([0].getLastD default) default) (cexVl2.getD 1 default) ≥ 1
      then chunkBy (splitCut cexVl2 1) ([] ++ [[0]]) [1] []
      else chunkBy (splitCut cexVl2 1) [] ([0] ++ [1]) []) ∧
    (anneal_groups [⟨cexVl2, [0]⟩, ⟨cexVl2, [1]⟩] 1 [] =
      if deltaG ⟨cexVl2, [0]⟩ ⟨cexVl2, [1]⟩ ≤ 1
      then [⟨cexVl2, [0] ++ [1]⟩]
      else [⟨cexVl2, [0]⟩, ⟨cexVl2, [1]⟩]) ∧
    (split_groups [⟨cexVl2, [0, 1]⟩] 1 =
      if delta_t (cexVl2.getD 0 default) (cexVl2.getD 1 default) ≥ 1
      then [⟨cexVl2, [0]⟩, ⟨cexVl2, [1]⟩]
      else [⟨cexVl2, [0, 1]⟩]) :=
  ⟨anneal_split_threshold_boundary.1 1 [] [] [⟨cexVl2, [0]⟩] ⟨cexVl2, [1]⟩ [] (by simp),
   anneal_split_threshold_boundary.2.1 cexVl2 1 [] [0] 1 [],
   anneal_split_threshold_boundary.2.2.1 ⟨cexVl2, [0]⟩ ⟨cexVl2, [1]⟩ 1 []
      (by decide) (by decide) (by simp),
   anneal_split_threshold_boundary.2.2.2 cexVl2 1 0 1 (by decide) (by decide)⟩

/-- C4: a barrier timestamp in the closed interval from the current group's
stop to the next group's start always blocks merging, regardless of the gap:
at the pair the walk starts a new output group, and on a two-group input the
result is the two groups unmerged. -/
theorem anneal_barrier_blocks_merge :
    (∀ (t : Int) (breaks : List Int) (done : List (List VocGroup))
       (cur : List VocGroup) (ng : VocGroup) (rest : List VocGroup) (b : Int),
      b ∈ breaks → (cur.getLastD default).stop ≤ b → b ≤ ng.start →
      chunkBy (annealNew t breaks) done cur (ng :: rest) =
        chunkBy (annealNew t breaks) (done ++ [cur]) [ng] rest) ∧
    (∀ (cg ng : VocGroup) (t : Int) (breaks : List Int) (b : Int),
      b ∈ breaks → cg.stop ≤ b → b ≤ ng.start →
      anneal_groups [cg, ng] t breaks =
        [⟨cg.voc_list, cg.voc_idxs⟩, ⟨cg.voc_list, ng.voc_idxs⟩]) := by
  constructor
  · intro t breaks done cur ng rest b hb h1 h2
    exact chunkBy_cons_true _ done cur ng rest
      (annealNew_barrier t breaks _ ng b hb h1 h2)
  · intro cg ng t breaks b hb h1 h2
    simp only [anneal_groups]
    rw [chunkBy_pair, annealNew_barrier t breaks cg ng b hb h1 h2]
    simp

/-- Witness for C4 at concrete inputs (barrier at tick 1, inside the
interval from stop 1 to start 2). -/
theorem anneal_barrier_blocks_merge_witness :
    (chunkBy (annealNew 5 [1]) [] [⟨cexVl2, [0]⟩] (⟨cexVl2, [1]⟩ :: []) =
      chunkBy (annealNew 5 [1]) ([] ++ [[⟨cexVl2, [0]⟩]]) [⟨cexVl2, [1]⟩] []) ∧
    (anneal_groups [⟨cexVl2, [0]⟩, ⟨cexVl2, [1]⟩] 5 [1] =
      [⟨cexVl2, [0]⟩, ⟨cexVl2, [1]⟩]) :=
  ⟨anneal_barrier_blocks_merge.1 5 [1] [] [⟨cexVl2, [0]⟩] ⟨cexVl2, [1]⟩ [] 1
      (by decide) (by decide) (by decide),
   anneal_barrier_blocks_merge.2 ⟨cexVl2, [0]⟩ ⟨cexVl2, [1]⟩ 5 [1] 1
      (by decide) (by decide) (by decide)⟩

/-!
## C5
-/

/-- C5: when no remaining song group starts strictly after the intro group
being processed, `define_bouts` fails (Python's `min` raises over the empty
candidate sequence) instead of silently dropping the intro group; in
particular any non-empty intro stream with an exhausted song pool fails. -/
theorem define_bouts_unmatched_intro_fails :
    (∀ (t : Int) (ig : VocGroup) (igs pool : List VocGroup),
      (∀ g ∈ pool, ¬ ig.stop < g.start) →
      defineBoutsLoop t (ig :: igs) pool = none) ∧
    (∀ (t : Int) (igs : List VocGroup), igs ≠ [] → define_bouts igs [] t = none) := by
  have part1 : ∀ (t : Int) (ig : VocGroup) (igs pool : List VocGroup),
      (∀ g ∈ pool, ¬ ig.stop < g.start) →
      defineBoutsLoop t (ig :: igs) pool = none := by
    intro t ig igs pool h
    have hcand : candIdxs ig pool = [] := by
      simp only [candIdxs, List.filter_eq_nil_iff]
      intro i hi
      simp only [decide_eq_true_eq]
      exact h (pool.getD i default) (getD_mem pool i default (List.mem_range.mp hi))
    simp only [defineBoutsLoop, hcand, minByKey]
  refine ⟨part1, ?_⟩
  intro t igs h
  match igs, h with
  | ig :: igs2, _ =>
    simp only [define_bouts, part1 t ig igs2 [] (by simp)]

/-- Witness for C5 at concrete inputs (a song group that starts before the
intro group stops, and an empty pool). -/
theorem define_bouts_unmatched_intro_fails_witness :
    defineBoutsLoop 5 (⟨cexVl2, [1]⟩ :: []) [⟨cexVl2, [0]⟩] = none ∧
    define_bouts [⟨cexVl2, [0]⟩] [] 5 = none :=
  ⟨define_bouts_unmatched_intro_fails.1 5 ⟨cexVl2, [1]⟩ [] [⟨cexVl2, [0]⟩] (by decide),
   define_bouts_unmatched_intro_fails.2 5 [⟨cexVl2, [0]⟩] (List.cons_ne_nil _ _)⟩

/-!
## C7
-/

/-- Relation between two timeline indices whose aliased labels both occur in
the canonical sequence with non-decreasing first-occurrence positions (the
"extend the current motif" case). -/
def motifSameRel (vl : List Vocalization) (seq : List String)
    (af : String → String) (i j : Nat) : Prop :=
  ∃ pi pj, seqPos seq (af ((vl.getD i default).name)) = some pi ∧
    seqPos seq (af ((vl.getD j default).name)) = some pj ∧ ¬ pj < pi

/-- Relation between two timeline indices whose aliased labels both occur in
the canonical sequence with a strictly decreasing first-occurrence position
(the "new motif" case). -/
def motifBreakRel (vl : List Vocalization) (seq : List String)
    (af : String → String) (i j : Nat) : Prop :=
  ∃ pi pj, seqPos seq (af ((vl.getD i default).name)) = some pi ∧
    seqPos seq (af ((vl.getD j default).name)) = some pj ∧ pj < pi

theorem motifNew_some (vl : List Vocalization) (seq : List String)
    (af : String → String) (a b : Nat) (v : Bool)
    (h : motifNew vl seq af a b = some v) :
    ∃ pn pp, seqPos seq (af ((vl.getD b default).name)) = some pn ∧
      seqPos seq (af ((vl.getD a default).name)) = some pp ∧
      v = decide (pn < pp) := by
  match h1 : seqPos seq (af ((vl.getD b default).name)),
        h2 : seqPos seq (af ((vl.getD a default).name)) with
  | some pn, some pp =>
    refine ⟨pn, pp, rfl, rfl, ?_⟩
    simp only [motifNew, h1, h2, Option.some.injEq] at h
    exact h.symm
  | none, _ =>
    simp only [motifNew, h1] at h
    exact Option.noConfusion h
  | some _, none =>
    simp only [motifNew, h1, h2] at h
    exact Option.noConfusion h

/-- The timeline of the spec's concrete motif scenario: seven syllables with
labels a, b, c, a, b, a, c. -/
def cexVl7 : List Vocalization :=
  [⟨0, 1, "a"⟩, ⟨2, 3, "b"⟩, ⟨4, 5, "c"⟩, ⟨6, 7, "a"⟩, ⟨8, 9, "b"⟩,
   ⟨10, 11, "a"⟩, ⟨12, 13, "c"⟩]

/-- C7: `define_motifs` partitions the syllable indices in order into
non-empty motifs such that consecutive syllables inside a motif never
decrease in first-occurrence template position while each motif boundary is
a strict decrease; on the spec's concrete scenario it yields the motifs
`[a,b,c]`, `[a,b]`, `[a,c]`, and an empty syllable index list yields an
empty motif list. -/
theorem define_motifs_boundary_rule :
    (∀ (vl : List Vocalization) (idxs : List Nat) (seq : List String)
       (af : String → String) (ms : List VocGroup),
      define_motifs vl idxs seq af = some ms →
      ((ms.map VocGroup.voc_idxs).flatten = idxs ∧
       (∀ g ∈ ms, g.voc_idxs ≠ []) ∧
       (∀ g ∈ ms, List.Chain' (motifSameRel vl seq af) g.voc_idxs) ∧
       List.Chain' (fun g g2 => ∀ i ∈ g.voc_idxs.getLast?, ∀ j ∈ g2.voc_idxs.head?,
          motifBreakRel vl seq af i j) ms)) ∧
    define_motifs cexVl7 [0, 1, 2, 3, 4, 5, 6] ["a", "b", "c"] id =
      some [⟨cexVl7, [0, 1, 2]⟩, ⟨cexVl7, [3, 4]⟩, ⟨cexVl7, [5, 6]⟩] ∧
    (∀ (vl : List Vocalization) (seq : List String) (af : String → String),
      define_motifs vl [] seq af = some []) := by
  refine ⟨?_, by decide, fun vl seq af => rfl⟩
  intro vl idxs seq af ms h
  match idxs with
  | [] =>
    simp only [define_motifs, Option.some.injEq] at h
    subst h
    exact ⟨by simp, by simp, by simp, by simp⟩
  | i :: is =>
    simp only [define_motifs] at h
    match hc : chunkM (motifNew vl seq af) [] [i] is with
    | none => rw [hc] at h; exact Option.noConfusion h
    | some cs =>
      rw [hc] at h
      simp only [Option.map_some', Option.some.injEq] at h
      subst h
      obtain ⟨hA, hN, hB, hC, hD, hE⟩ := chunkM_spec _ is [i] cs (by simp) hc
      have hcomp : (VocGroup.voc_idxs ∘ fun c : List Nat => (⟨vl, c⟩ : VocGroup)) = id := rfl
      refine ⟨?_, ?_, ?_, ?_⟩
      · rw [List.map_map, hcomp, List.map_id, hA]
        rfl
      · intro g hg
        simp only [List.mem_map] at hg
        obtain ⟨c, hcmem, rfl⟩ := hg
        simpa using hB c hcmem
      · intro g hg
        simp only [List.mem_map] at hg
        obtain ⟨c, hcmem, rfl⟩ := hg
        have hch := hD (List.chain'_singleton i) c hcmem
        refine List.Chain'.imp ?_ hch
        intro a b hab
        obtain ⟨pn, pp, h1, h2, h3⟩ := motifNew_some vl seq af a b false hab
        exact ⟨pp, pn, h2, h1, of_decide_eq_false h3.symm⟩
      · rw [List.chain'_map]
        refine List.Chain'.imp ?_ hE
        intro c d hcd i2 hi2 j2 hj2
        have hab := hcd i2 hi2 j2 hj2
        obtain ⟨pn, pp, h1, h2, h3⟩ := motifNew_some vl seq af i2 j2 true hab
        exact ⟨pp, pn, h2, h1, of_decide_eq_true h3.symm⟩

/-- Witness for C7 at the spec's concrete scenario. -/
theorem define_motifs_boundary_rule_witness :
    (([(⟨cexVl7, [0, 1, 2]⟩ : VocGroup), ⟨cexVl7, [3, 4]⟩, ⟨cexVl7, [5, 6]⟩].map
        VocGroup.voc_idxs).flatten = [0, 1, 2, 3, 4, 5, 6] ∧
     (∀ g ∈ [(⟨cexVl7, [0, 1, 2]⟩ : VocGroup), ⟨cexVl7, [3, 4]⟩, ⟨cexVl7, [5, 6]⟩],
        g.voc_idxs ≠ []) ∧
     (∀ g ∈ [(⟨cexVl7, [0, 1, 2]⟩ : VocGroup), ⟨cexVl7, [3, 4]⟩, ⟨cexVl7, [5, 6]⟩],
        List.Chain' (motifSameRel cexVl7 ["a", "b", "c"] id) g.voc_idxs) ∧
     List.Chain' (fun g g2 => ∀ i ∈ g.voc_idxs.getLast?, ∀ j ∈ g2.voc_idxs.head?,
        motifBreakRel cexVl7 ["a", "b", "c"] id i j)
        [(⟨cexVl7, [0, 1, 2]⟩ : VocGroup), ⟨cexVl7, [3, 4]⟩, ⟨cexVl7, [5, 6]⟩]) :=
  define_motifs_boundary_rule.1 cexVl7 [0, 1, 2, 3, 4, 5, 6] ["a", "b", "c"] id
    [⟨cexVl7, [0, 1, 2]⟩, ⟨cexVl7, [3, 4]⟩, ⟨cexVl7, [5, 6]⟩] (by decide)

/-!
## C9
-/

/-- Relation between two bouts whose silence is defined and at most the
threshold (they may share a phrase). -/
def phraseWithin (t : Int) (a b : Bout) : Prop :=
  ∃ d, deltaB a b = some d ∧ d ≤ t

/-- Relation between two bouts whose silence is defined and strictly above
the threshold (they must start separate phrases). -/
def phraseBreak (t : Int) (a b : Bout) : Prop :=
  ∃ d, deltaB a b = some d ∧ t < d

/-- C9: in the output of `define_phrases`, every phrase is non-empty, the
silence between consecutive bouts inside one phrase is at most the
threshold, and the silence between the last bout of a phrase and the first
bout of the next phrase strictly exceeds the threshold. -/
theorem define_phrases_monotonicity :
    ∀ (bout_list : List Bout) (t : Int) (ps : List (List Bout)),
      define_phrases bout_list t = some ps →
      (∀ p ∈ ps, p ≠ []) ∧
      (∀ p ∈ ps, List.Chain' (phraseWithin t) p) ∧
      List.Chain' (fun p q => ∀ x ∈ p.getLast?, ∀ y ∈ q.head?, phraseBreak t x y) ps := by
  intro bouts t ps h
  match bouts with
  | [] =>
    simp only [define_phrases, Option.some.injEq] at h
    subst h
    exact ⟨by simp, by simp, by simp⟩
  | b :: bs =>
    simp only [define_phrases] at h
    obtain ⟨hA, hN, hB, hC, hD, hE⟩ := chunkM_spec _ bs [b] ps (by simp) h
    refine ⟨hB, ?_, ?_⟩
    · intro p hp
      have hch := hD (List.chain'_singleton b) p hp
      refine List.Chain'.imp ?_ hch
      intro a c hac
      simp only [phraseNew] at hac
      match hd : deltaB a c with
      | none => rw [hd] at hac; exact Option.noConfusion hac
      | some d =>
        rw [hd] at hac
        simp only [Option.map_some', Option.some.injEq] at hac
        exact ⟨d, hd, not_lt.mp (of_decide_eq_false hac)⟩
    · refine List.Chain'.imp ?_ hE
      intro p q hpq x hx y hy
      have hxy := hpq x hx y hy
      simp only [phraseNew] at hxy
      match hd : deltaB x y with
      | none => rw [hd] at hxy; exact Option.noConfusion hxy
      | some d =>
        rw [hd] at hxy
        simp only [Option.map_some', Option.some.injEq] at hxy
        exact ⟨d, hd, of_decide_eq_true hxy⟩

/-- Witness for C9 at concrete inputs (two bouts one tick apart, threshold
five ticks: one phrase of two bouts). -/
theorem define_phrases_monotonicity_witness :
    (∀ p ∈ [[cexB1, cexB1]], p ≠ []) ∧
    (∀ p ∈ [[cexB1, cexB1]], List.Chain' (phraseWithin 5) p) ∧
    List.Chain' (fun p q => ∀ x ∈ p.getLast?, ∀ y ∈ q.head?, phraseBreak 5 x y)
      [[cexB1, cexB1]] :=
  define_phrases_monotonicity [cexB1, cexB1] 5 [[cexB1, cexB1]] (by decide)

/-!
## C8
-/

theorem chain'_imp_mem {α : Type} {R S : α → α → Prop} :
    ∀ (l : List α), (∀ a ∈ l, ∀ b ∈ l, R a b → S a b) → List.Chain' R l →
      List.Chain' S l := by
  intro l
  induction l with
  | nil => intro _ _; exact List.chain'_nil
  | cons x xs ih =>
    intro h hch
    rw [List.chain'_cons'] at hch ⊢
    obtain ⟨h1, h2⟩ := hch
    refine ⟨?_, ih (fun a ha b hb =>
      h a (List.mem_cons_of_mem x ha) b (List.mem_cons_of_mem x hb)) h2⟩
    intro y hy
    exact h x (List.mem_cons_self x xs) y
      (List.mem_cons_of_mem x (List.mem_of_mem_head? hy)) (h1 y hy)

theorem mk_stop_of_getLast? (vl : List Vocalization) (c : List Nat) (x : Nat)
    (h : c.getLast? = some x) :
    (⟨vl, c⟩ : VocGroup).stop = (vl.getD x default).stop := by
  simp only [VocGroup.stop, VocGroup.last, VocGroup.vocalizations]
  rw [List.getLastD_eq_getLast?, List.getLast?_map, h]
  rfl

theorem mk_start_of_head? (vl : List Vocalization) (c : List Nat) (y : Nat)
    (h : c.head? = some y) :
    (⟨vl, c⟩ : VocGroup).start = (vl.getD y default).start := by
  simp only [VocGroup.start, VocGroup.first, VocGroup.vocalizations]
  rw [List.headD_eq_head?, List.head?_map, h]
  rfl

/-- C8: splitting one non-empty group and then re-annealing the fragments
with no barriers and a threshold at least every internal gap reconstructs
the original index list. -/
theorem split_then_anneal_identity :
    ∀ (g : VocGroup) (ts ta : Int),
      g.voc_idxs ≠ [] →
      List.Chain' (fun i j =>
        delta_t (g.voc_list.getD i default) (g.voc_list.getD j default) ≤ ta)
        g.voc_idxs →
      anneal_groups (split_groups [g] ts) ta [] = [⟨g.voc_list, g.voc_idxs⟩] := by
  intro g ts ta hne hch
  obtain ⟨vl, idxs⟩ := g
  simp only at hne hch ⊢
  have hgen : ∀ (cs : List (List Nat)),
      cs.flatten = idxs → cs ≠ [] → (∀ c ∈ cs, c ≠ []) →
      anneal_groups (cs.map (fun c => (⟨vl, c⟩ : VocGroup))) ta [] = [⟨vl, idxs⟩] := by
    intro cs hflatn hne2 hnonempty
    have hnil : [] ∉ cs := fun hmem => hnonempty [] hmem rfl
    have hflc : List.Chain' (fun i j =>
        delta_t (vl.getD i default) (vl.getD j default) ≤ ta) cs.flatten := by
      rw [hflatn]; exact hch
    obtain ⟨_, hbd⟩ := (List.chain'_flatten hnil).mp hflc
    have hS : List.Chain'
        (fun c d => annealNew ta [] (⟨vl, c⟩ : VocGroup) ⟨vl, d⟩ = false) cs := by
      refine chain'_imp_mem cs ?_ hbd
      intro c hc d hd hR
      have hcne := hnonempty c hc
      have hdne := hnonempty d hd
      obtain ⟨x, hx⟩ : ∃ x, c.getLast? = some x :=
        ⟨c.getLast hcne, List.getLast?_eq_getLast c hcne⟩
      obtain ⟨y, hy⟩ : ∃ y, d.head? = some y := by
        match d, hdne with
        | z :: zs, _ => exact ⟨z, rfl⟩
      have hdelta : deltaG (⟨vl, c⟩ : VocGroup) ⟨vl, d⟩ =
          delta_t (vl.getD x default) (vl.getD y default) := by
        rw [deltaG, delta_t, mk_stop_of_getLast? vl c x hx, mk_start_of_head? vl d y hy]
      have hle : deltaG (⟨vl, c⟩ : VocGroup) ⟨vl, d⟩ ≤ ta := by
        rw [hdelta]
        exact hR x (Option.mem_def.mpr hx) y (Option.mem_def.mpr hy)
      simp only [annealNew, List.any_nil, Bool.false_or, decide_eq_false_iff_not]
      exact not_lt.mpr hle
    match cs, hne2, hS, hflatn, hnonempty with
    | c0 :: cs2, _, hS, hflatn, hnonempty =>
      simp only [List.map_cons, anneal_groups]
      have hext := chunkBy_all_extend (annealNew ta [])
        (cs2.map (fun c => (⟨vl, c⟩ : VocGroup))) [] [(⟨vl, c0⟩ : VocGroup)]
        (by simp) ?_
      · rw [hext]
        have hjoin : (([(⟨vl, c0⟩ : VocGroup)] ++
            cs2.map fun c => (⟨vl, c⟩ : VocGroup)).map VocGroup.voc_idxs).flatten =
            idxs := by
          have hcomp : (VocGroup.voc_idxs ∘ fun c : List Nat =>
              (⟨vl, c⟩ : VocGroup)) = id := rfl
          rw [show ([(⟨vl, c0⟩ : VocGroup)] ++ cs2.map fun c => (⟨vl, c⟩ : VocGroup)) =
            (c0 :: cs2).map (fun c => (⟨vl, c⟩ : VocGroup)) from rfl]
          rw [List.map_map, hcomp, List.map_id]
          exact hflatn
        simp only [List.map_cons, List.map_nil, List.nil_append, hjoin]
      · have : ([(⟨vl, c0⟩ : VocGroup)].getLastD default) = (⟨vl, c0⟩ : VocGroup) := rfl
        rw [this]
        rw [show ((⟨vl, c0⟩ : VocGroup) :: cs2.map fun c => (⟨vl, c⟩ : VocGroup)) =
          (c0 :: cs2).map (fun c => (⟨vl, c⟩ : VocGroup)) from rfl]
        rw [List.chain'_map]
        exact hS
  match hsh : idxs, hne with
  | i :: is, _ =>
    have hbridge := chunkM_of_chunkBy (splitCut vl ts) is [] [i]
    obtain ⟨hA, hN, hB, _, _, _⟩ :=
      chunkM_spec (fun a b => some (splitCut vl ts a b)) is [i]
        (chunkBy (splitCut vl ts) [] [i] is) (by simp) hbridge
    have hsplit : split_groups [⟨vl, i :: is⟩] ts =
        (chunkBy (splitCut vl ts) [] [i] is).map (fun c => (⟨vl, c⟩ : VocGroup)) := by
      simp only [split_groups, List.flatMap_cons, List.flatMap_nil, splitIdxs,
        List.append_nil]
    rw [hsplit]
    exact hgen (chunkBy (splitCut vl ts) [] [i] is) (by rw [hA]; rfl) hN hB

/-- Three-event timeline with a seven-tick silence before the last event. -/
def cexVl8 : List Vocalization := [⟨0, 1, "a"⟩, ⟨2, 3, "b"⟩, ⟨10, 11, "c"⟩]

/-- Witness for C8 at concrete inputs: a three-event group split at a
seven-tick silence into two fragments, re-annealed with a large threshold. -/
theorem split_then_anneal_identity_witness :
    anneal_groups (split_groups [⟨cexVl8, [0, 1, 2]⟩] 5) 20 [] =
      [⟨cexVl8, [0, 1, 2]⟩] :=
  split_then_anneal_identity ⟨cexVl8, [0, 1, 2]⟩ 5 20 (by decide)
    (List.chain'_cons.mpr ⟨by decide,
      List.chain'_cons.mpr ⟨by decide, List.chain'_singleton 2⟩⟩)

/-!
## C6
-/

/-- The timeline indices a bout accounts for: its intro and syllable
sub-groups. -/
def boutIdxs (b : Bout) : List Nat :=
  b.intro_idxs ++ b.syll_idxs

theorem minByKeyAux_mem (key : Nat → Int) :
    ∀ (l : List Nat) (m : Nat), minByKeyAux key m l ∈ m :: l := by
  intro l
  induction l with
  | nil => intro m; simp [minByKeyAux]
  | cons y ys ih =>
    intro m
    simp only [minByKeyAux]
    by_cases h : key y < key m
    · rw [if_pos h]
      exact List.mem_cons_of_mem m (ih y)
    · rw [if_neg h]
      rcases List.mem_cons.mp (ih m) with h2 | h2
      · rw [h2]; exact List.mem_cons_self m (y :: ys)
      · exact List.mem_cons_of_mem m (List.mem_cons_of_mem y h2)

theorem minByKey_mem (key : Nat → Int) (l : List Nat) (k : Nat)
    (h : minByKey key l = some k) : k ∈ l := by
  match l with
  | [] => exact Option.noConfusion h
  | x :: xs =>
    simp only [minByKey, Option.some.injEq] at h
    rw [← h]
    exact minByKeyAux_mem key xs x

theorem candIdxs_lt (ig : VocGroup) (pool : List VocGroup) (k : Nat)
    (h : k ∈ candIdxs ig pool) : k < pool.length := by
  simp only [candIdxs, List.mem_filter, List.mem_range] at h
  exact h.1

theorem defineBoutsLoop_perm (t : Int) :
    ∀ (igs pool : List VocGroup) (bs : List Bout) (left : List VocGroup),
      defineBoutsLoop t igs pool = some (bs, left) →
      ((bs.map boutIdxs).flatten ++ (left.map VocGroup.voc_idxs).flatten).Perm
        ((igs.map VocGroup.voc_idxs).flatten ++
          (pool.map VocGroup.voc_idxs).flatten) := by
  intro igs
  induction igs with
  | nil =>
    intro pool bs left h
    simp only [defineBoutsLoop, Option.some.injEq, Prod.mk.injEq] at h
    obtain ⟨h1, h2⟩ := h
    subst h1
    subst h2
    simp
  | cons ig igs ih =>
    intro pool bs left h
    simp only [defineBoutsLoop] at h
    match hmin : minByKey (fun i => deltaG ig (pool.getD i default)) (candIdxs ig pool) with
    | none =>
      simp only [hmin] at h
      exact Option.noConfusion h
    | some k =>
      simp only [hmin] at h
      have hk : k < pool.length := candIdxs_lt ig pool k (minByKey_mem _ _ k hmin)
      have hpp : ((pool.getD k default).voc_idxs ++
          ((pool.eraseIdx k).map VocGroup.voc_idxs).flatten).Perm
          ((pool.map VocGroup.voc_idxs).flatten) := by
        have hperm := getD_cons_eraseIdx_perm pool k default hk
        have := (hperm.map VocGroup.voc_idxs).flatten
        simpa using this
      by_cases hdel : deltaG ig (pool.getD k default) ≤ t
      · rw [if_pos hdel] at h
        match hmk : mkBout ig.voc_list ig (pool.getD k default) with
        | none => simp only [hmk] at h; exact Option.noConfusion h
        | some b =>
          simp only [hmk] at h
          match hrec : defineBoutsLoop t igs (pool.eraseIdx k) with
          | none => simp only [hrec] at h; exact Option.noConfusion h
          | some (bs2, left2) =>
            simp only [hrec] at h
            simp only [Option.some.injEq, Prod.mk.injEq] at h
            obtain ⟨hbs, hleft⟩ := h
            subst hbs
            subst hleft
            have ihp := ih (pool.eraseIdx k) bs2 left2 hrec
            obtain ⟨hbi, hbsyl, _, _, _⟩ := mkBout_eq _ _ _ b hmk
            simp only [List.map_cons, List.flatten_cons, boutIdxs, hbi, hbsyl,
              List.append_assoc]
            refine List.Perm.append_left ig.voc_idxs ?_
            refine (List.Perm.append_left ((pool.getD k default).voc_idxs) ihp).trans ?_
            exact (List.perm_append_comm_assoc _ _ _).trans
              (List.Perm.append_left _ hpp)
      · rw [if_neg hdel] at h
        match hmk : mkBout ig.voc_list ig ⟨ig.voc_list, []⟩ with
        | none => simp only [hmk] at h; exact Option.noConfusion h
        | some b =>
          simp only [hmk] at h
          match hrec : defineBoutsLoop t igs pool with
          | none => simp only [hrec] at h; exact Option.noConfusion h
          | some (bs2, left2) =>
            simp only [hrec] at h
            simp only [Option.some.injEq, Prod.mk.injEq] at h
            obtain ⟨hbs, hleft⟩ := h
            subst hbs
            subst hleft
            have ihp := ih pool bs2 left2 hrec
            obtain ⟨hbi, hbsyl, _, _, _⟩ := mkBout_eq _ _ _ b hmk
            simp only [List.map_cons, List.flatten_cons, boutIdxs, hbi, hbsyl,
              List.append_assoc, List.append_nil]
            exact List.Perm.append_left ig.voc_idxs (by simpa using ihp)

theorem leftoverBouts_flatten :
    ∀ (left : List VocGroup) (extra : List Bout),
      leftoverBouts left = some extra →
      (extra.map boutIdxs).flatten = (left.map VocGroup.voc_idxs).flatten := by
  intro left
  induction left with
  | nil =>
    intro extra h
    simp only [leftoverBouts, Option.some.injEq] at h
    subst h
    rfl
  | cons g gs ih =>
    intro extra h
    simp only [leftoverBouts] at h
    match hmk : mkBout g.voc_list ⟨g.voc_list, []⟩ g with
    | none => simp only [hmk] at h; exact Option.noConfusion h
    | some b =>
      simp only [hmk] at h
      match hrec : leftoverBouts gs with
      | none => simp only [hrec] at h; exact Option.noConfusion h
      | some bs =>
        simp only [hrec] at h
        simp only [Option.some.injEq] at h
        subst h
        obtain ⟨hbi, hbs, _, _, _⟩ := mkBout_eq _ _ _ b hmk
        simp only [List.map_cons, List.flatten_cons, boutIdxs, hbi, hbs,
          ih bs hrec]
        rfl

/-- C6: when `define_bouts` succeeds, the indices of the returned bouts'
intro and syllable sub-groups are a permutation of all indices of the input
intro and song group streams: no index is lost and none is duplicated. -/
theorem define_bouts_index_completeness :
    ∀ (intro_groups song_groups : List VocGroup) (t : Int) (bouts : List Bout),
      define_bouts intro_groups song_groups t = some bouts →
      ((bouts.map boutIdxs).flatten).Perm
        ((intro_groups.map VocGroup.voc_idxs).flatten ++
          (song_groups.map VocGroup.voc_idxs).flatten) := by
  intro igs sgs t bouts h
  simp only [define_bouts] at h
  match hloop : defineBoutsLoop t igs sgs with
  | none => simp only [hloop] at h; exact Option.noConfusion h
  | some (bs, left) =>
    simp only [hloop] at h
    match hleft : leftoverBouts left with
    | none => simp only [hleft] at h; exact Option.noConfusion h
    | some extra =>
      simp only [hleft] at h
      simp only [Option.some.injEq] at h
      subst h
      have hsort := sortByKey_perm (fun b => (Bout.start b).getD 0) (bs ++ extra)
      refine ((hsort.map boutIdxs).flatten).trans ?_
      rw [List.map_append, List.flatten_append, leftoverBouts_flatten left extra hleft]
      exact defineBoutsLoop_perm t igs sgs bs left hloop

/-- Witness for C6 at concrete inputs: one intro group paired with one song
group. -/
theorem define_bouts_index_completeness_witness :
    (([cexB1].map boutIdxs).flatten).Perm
      (([(⟨cexVl2, [0]⟩ : VocGroup)].map VocGroup.voc_idxs).flatten ++
        ([(⟨cexVl2, [1]⟩ : VocGroup)].map VocGroup.voc_idxs).flatten) :=
  define_bouts_index_completeness [⟨cexVl2, [0]⟩] [⟨cexVl2, [1]⟩] 10 [cexB1]
    (by decide)
